import Mathlib

/-!
Verification of the flowchart-builder core (src/pages/Index.tsx).

The tree model (`FlowchartNode`, `updateNodeRecursive`, `addChildRecursive`,
`handleSaveEdit`, `handleCancelEdit`) and the layout computations
(`getButtonWidth`, `getDisplayText`, `buttonWidth`, `spineWidth`,
`tickOffsets`) are shallowly embedded from the source:

- JS strings are `List Char` (so `substring`/`length`/`trim` are list
  operations); node ids are `String`.
- JS numbers in the layout code are `ℚ` (the constants 0.7, 14, 6 are exact).
- `Partial<FlowchartNode>` is `Patch`, a record of `Option` fields; the JS
  spread merge is `applyPatch`.
- The id generated in `addChild` from `Date.now()`/`Math.random()` is an
  environment value, so it is passed as an explicit `childId` argument.
- For reference-identity (structural-sharing) properties a second embedding
  `ANode` is used: it is `FlowchartNode` extended with an object address
  `addr`, and the mutators thread an allocation counter, assigning a fresh
  address to every JS object literal they evaluate.  Reference identity of a
  subtree before/after an operation is then equality of the subtree including
  its addresses.
-/

set_option linter.unusedVariables false

/-- Node of the flowchart tree (interface FlowchartNode, Index.tsx lines 6-12). -/
inductive FlowchartNode : Type where
  | mk (id : String) (name : List Char) (children : List FlowchartNode)
       (isEditing : Bool) (childrenVisible : Bool) : FlowchartNode

def FlowchartNode.id : FlowchartNode → String
  | .mk i _ _ _ _ => i

def FlowchartNode.name : FlowchartNode → List Char
  | .mk _ nm _ _ _ => nm

def FlowchartNode.children : FlowchartNode → List FlowchartNode
  | .mk _ _ cs _ _ => cs

def FlowchartNode.isEditing : FlowchartNode → Bool
  | .mk _ _ _ e _ => e

def FlowchartNode.childrenVisible : FlowchartNode → Bool
  | .mk _ _ _ _ v => v

/-- `Partial<FlowchartNode>`: every field optional. -/
structure Patch where
  id : Option String := none
  name : Option (List Char) := none
  children : Option (List FlowchartNode) := none
  isEditing : Option Bool := none
  childrenVisible : Option Bool := none

/-- The JS spread merge of a node with a partial patch:
an object with the node's fields overridden by the patch's present fields. -/
def applyPatch (p : Patch) (n : FlowchartNode) : FlowchartNode :=
  .mk (p.id.getD n.id) (p.name.getD n.name) (p.children.getD n.children)
      (p.isEditing.getD n.isEditing) (p.childrenVisible.getD n.childrenVisible)

/-- The initial root-only tree (Index.tsx lines 191-197). -/
def initialFlowchart : FlowchartNode := .mk "root" "Start".toList [] false true

mutual
/-- `updateNodeRecursive` inside `updateNode` (Index.tsx lines 201-213):
on an id match return the spread-merged node (children untouched), otherwise
rebuild the node with all children mapped recursively. -/
def updateNodeRecursive (nodeId : String) (updates : Patch) : FlowchartNode → FlowchartNode
  | .mk i nm cs e v =>
    if i = nodeId then applyPatch updates (.mk i nm cs e v)
    else .mk i nm (updateChildren nodeId updates cs) e v
/-- The `node.children.map(updateNodeRecursive)` part, as explicit list recursion. -/
def updateChildren (nodeId : String) (updates : Patch) : List FlowchartNode → List FlowchartNode
  | [] => []
  | c :: cs => updateNodeRecursive nodeId updates c :: updateChildren nodeId updates cs
end

mutual
/-- `addChildRecursive` inside `addChild` (Index.tsx lines 215-241):
on an id match append a new leaf named `Button (n+1)` (n = current child
count, `isEditing = false`, `childrenVisible = true`) to the children,
otherwise rebuild the node with all children mapped recursively.
`childId` is the id `addChild` computes from `Date.now()`/`Math.random()`,
passed here as an explicit input. -/
def addChildRecursive (parentId childId : String) : FlowchartNode → FlowchartNode
  | .mk i nm cs e v =>
    if i = parentId then
      .mk i nm
        (cs ++ [.mk childId ("Button ".toList ++ (toString (cs.length + 1)).toList) [] false true])
        e v
    else .mk i nm (addChildList parentId childId cs) e v
/-- The `node.children.map(addChildRecursive)` part, as explicit list recursion. -/
def addChildList (parentId childId : String) : List FlowchartNode → List FlowchartNode
  | [] => []
  | c :: cs => addChildRecursive parentId childId c :: addChildList parentId childId cs
end

/-- The string JS `editValue.trim()` computes: leading and trailing
whitespace removed. -/
def jsTrim (s : List Char) : List Char :=
  ((s.dropWhile Char.isWhitespace).reverse.dropWhile Char.isWhitespace).reverse

/-- `handleSaveEdit` (Index.tsx lines 36-43), as its effect on the tree:
if the trimmed edit buffer is nonempty (JS truthy) commit it as the new name
and leave edit mode, otherwise only leave edit mode (the name patch is not
sent, so the previous label stays). -/
def handleSaveEdit (nodeId : String) (editValue : List Char) (t : FlowchartNode) :
    FlowchartNode :=
  if jsTrim editValue ≠ [] then
    updateNodeRecursive nodeId
      { name := some (jsTrim editValue), isEditing := some false } t
  else
    updateNodeRecursive nodeId { isEditing := some false } t

/-- `handleCancelEdit` (Index.tsx lines 45-48), as its effect on the tree:
only leave edit mode (the local buffer reset does not touch the tree). -/
def handleCancelEdit (nodeId : String) (t : FlowchartNode) : FlowchartNode :=
  updateNodeRecursive nodeId { isEditing := some false } t

mutual
/-- All ids in a tree, in preorder. -/
def idsOf : FlowchartNode → List String
  | .mk i _ cs _ _ => i :: idsOfList cs
def idsOfList : List FlowchartNode → List String
  | [] => []
  | c :: cs => idsOf c ++ idsOfList cs
end

/-- The subtree reached by following a list of child indices. -/
def nodeAt : FlowchartNode → List Nat → Option FlowchartNode
  | t, [] => some t
  | t, j :: p =>
    match t.children[j]? with
    | some c => nodeAt c p
    | none => none

/-- Rewrite the subtree at a child-index path with `f` (identity on a bad path). -/
def modifyAt (f : FlowchartNode → FlowchartNode) : FlowchartNode → List Nat → FlowchartNode
  | t, [] => f t
  | .mk i nm cs e v, j :: p =>
    match cs[j]? with
    | some c => .mk i nm (cs.set j (modifyAt f c p)) e v
    | none => .mk i nm cs e v

/-- The leaf `addChild` creates when `k` is the new child's 1-based position. -/
def newChildNode (childId : String) (k : Nat) : FlowchartNode :=
  .mk childId ("Button ".toList ++ (toString k).toList) [] false true

/-- A node with a fresh leaf appended at the end of its child sequence. -/
def appendNewChild (childId : String) (n : FlowchartNode) : FlowchartNode :=
  .mk n.id n.name (n.children ++ [newChildNode childId (n.children.length + 1)])
    n.isEditing n.childrenVisible

mutual
/-- DFS (preorder) lookup of the first node with the given id. -/
def findNode (nodeId : String) : FlowchartNode → Option FlowchartNode
  | .mk i nm cs e v =>
    if i = nodeId then some (.mk i nm cs e v) else findNodeList nodeId cs
def findNodeList (nodeId : String) : List FlowchartNode → Option FlowchartNode
  | [] => none
  | c :: cs =>
    match findNode nodeId c with
    | some r => some r
    | none => findNodeList nodeId cs
end

/-- A whole interaction sequence of `addChild` calls: each step is a
(parentId, generated childId) pair. -/
def applyAddSeq (seq : List (String × String)) (t : FlowchartNode) : FlowchartNode :=
  seq.foldl (fun acc sc => addChildRecursive sc.1 sc.2 acc) t

/-- The generated id of every step is distinct from all ids present in the
tree that step runs on. -/
def freshSeq : List (String × String) → FlowchartNode → Bool
  | [], _ => true
  | sc :: rest, t => (!(idsOf t).contains sc.2) && freshSeq rest (addChildRecursive sc.1 sc.2 t)

/-- The per-node fields `update` can change without touching the tree shape. -/
def contentOf (n : FlowchartNode) : String × List Char × Bool × Bool :=
  (n.id, n.name, n.isEditing, n.childrenVisible)

/-- Number of children of a node. -/
def childCount (n : FlowchartNode) : Nat :=
  n.children.length

/- ----------------------------------------------------------------- -/
/- Layout computations (FlowchartButton component).                   -/
/- ----------------------------------------------------------------- -/

/-- `getButtonWidth` (Index.tsx lines 63-68): `max(8, length * 0.7 + 4)` rem. -/
def getButtonWidth (text : List Char) : ℚ :=
  let baseWidth : ℚ := 8
  let charWidth : ℚ := 0.7
  let padding : ℚ := 4
  max baseWidth ((text.length : ℚ) * charWidth + padding)

/-- `getDisplayText` (Index.tsx lines 71-74): the label verbatim unless
truncation is on and the label is longer than 20 characters, in which case
its first 20 characters followed by an ellipsis. -/
def getDisplayText (truncateText : Bool) (text : List Char) : List Char :=
  if truncateText = false ∨ text.length ≤ 20 then text
  else text.take 20 ++ "...".toList

/-- `buttonWidth` (Index.tsx line 76): width of the live edit buffer while
editing, else of the (possibly truncated) label. -/
def buttonWidth (truncateText : Bool) (editValue : List Char) (node : FlowchartNode) : ℚ :=
  getButtonWidth
    (if node.isEditing then editValue
     else if truncateText then getDisplayText truncateText node.name else node.name)

/-- `displayText` (Index.tsx line 77). -/
def displayText (truncateText : Bool) (node : FlowchartNode) : List Char :=
  getDisplayText truncateText node.name

/-- `hasChildren` (Index.tsx line 78). -/
def hasChildren (node : FlowchartNode) : Bool :=
  decide (node.children.length > 0)

/-- The guard of the whole child-row block (Index.tsx line 144):
`hasChildren && node.childrenVisible`. -/
def childRowRendered (node : FlowchartNode) : Bool :=
  hasChildren node && node.childrenVisible

/-- Width of the horizontal connector (Index.tsx lines 150-157): rendered
only inside the visible child row and only with more than one child, with
width `(childCount - 1) * 14 + 6` rem. -/
def spineWidth (node : FlowchartNode) : Option ℚ :=
  if childRowRendered node && decide (node.children.length > 1) then
    some (((node.children.length : ℚ) - 1) * 14 + 6)
  else none

/-- Left offsets of the vertical per-child tick lines (Index.tsx lines
159-167): one per child at `index * 14` rem, rendered under the same guard
as the spine. -/
def tickOffsets (node : FlowchartNode) : List ℚ :=
  if childRowRendered node && decide (node.children.length > 1) then
    (List.range node.children.length).map (fun (index : ℕ) => (index : ℚ) * 14)
  else []

/- ----------------------------------------------------------------- -/
/- Addressed embedding for reference-identity properties.             -/
/- ----------------------------------------------------------------- -/

/-- `FlowchartNode` plus a JS object address. -/
inductive ANode : Type where
  | mk (addr : Nat) (id : String) (name : List Char) (children : List ANode)
       (isEditing : Bool) (childrenVisible : Bool) : ANode

def ANode.addr : ANode → Nat
  | .mk a _ _ _ _ _ => a

def ANode.id : ANode → String
  | .mk _ i _ _ _ _ => i

def ANode.name : ANode → List Char
  | .mk _ _ nm _ _ _ => nm

def ANode.children : ANode → List ANode
  | .mk _ _ _ cs _ _ => cs

def ANode.isEditing : ANode → Bool
  | .mk _ _ _ _ e _ => e

def ANode.childrenVisible : ANode → Bool
  | .mk _ _ _ _ _ v => v

/-- `Partial<FlowchartNode>` over addressed nodes. -/
structure APatch where
  id : Option String := none
  name : Option (List Char) := none
  children : Option (List ANode) := none
  isEditing : Option Bool := none
  childrenVisible : Option Bool := none

mutual
/-- `updateNodeRecursive` over addressed nodes, threading an allocation
counter: each evaluated object literal gets the next fresh address.  An id
match evaluates one literal (the spread merge, child references untouched);
a non-match rebuilds every child and then evaluates one literal for the node
itself. -/
def updateNodeRecursiveA (nodeId : String) (updates : APatch) : ANode → Nat → ANode × Nat
  | .mk a i nm cs e v, ctr =>
    if i = nodeId then
      (.mk ctr (updates.id.getD i) (updates.name.getD nm) (updates.children.getD cs)
        (updates.isEditing.getD e) (updates.childrenVisible.getD v), ctr + 1)
    else
      let r := updateChildrenA nodeId updates cs ctr
      (.mk r.2 i nm r.1 e v, r.2 + 1)
def updateChildrenA (nodeId : String) (updates : APatch) : List ANode → Nat → List ANode × Nat
  | [], ctr => ([], ctr)
  | c :: cs, ctr =>
    let rc := updateNodeRecursiveA nodeId updates c ctr
    let rcs := updateChildrenA nodeId updates cs rc.2
    (rc.1 :: rcs.1, rcs.2)
end

mutual
/-- `addChildRecursive` over addressed nodes, threading an allocation
counter.  An id match evaluates the new leaf literal and the spread merge
(existing child references reused untouched); a non-match rebuilds every
child and the node itself. -/
def addChildRecursiveA (parentId childId : String) : ANode → Nat → ANode × Nat
  | .mk a i nm cs e v, ctr =>
    if i = parentId then
      (.mk (ctr + 1) i nm
        (cs ++ [.mk ctr childId ("Button ".toList ++ (toString (cs.length + 1)).toList)
          [] false true]) e v, ctr + 2)
    else
      let r := addChildListA parentId childId cs ctr
      (.mk r.2 i nm r.1 e v, r.2 + 1)
def addChildListA (parentId childId : String) : List ANode → Nat → List ANode × Nat
  | [], ctr => ([], ctr)
  | c :: cs, ctr =>
    let rc := addChildRecursiveA parentId childId c ctr
    let rcs := addChildListA parentId childId cs rc.2
    (rc.1 :: rcs.1, rcs.2)
end

mutual
/-- All ids in an addressed tree. -/
def idsOfA : ANode → List String
  | .mk _ i _ cs _ _ => i :: idsOfListA cs
def idsOfListA : List ANode → List String
  | [] => []
  | c :: cs => idsOfA c ++ idsOfListA cs
end

mutual
/-- All object addresses in an addressed tree. -/
def addrsOfA : ANode → List Nat
  | .mk a _ _ cs _ _ => a :: addrsOfListA cs
def addrsOfListA : List ANode → List Nat
  | [] => []
  | c :: cs => addrsOfA c ++ addrsOfListA cs
end

mutual
/-- Forget the addresses, recovering the plain embedding. -/
def eraseA : ANode → FlowchartNode
  | .mk _ i nm cs e v => .mk i nm (eraseAList cs) e v
def eraseAList : List ANode → List FlowchartNode
  | [] => []
  | c :: cs => eraseA c :: eraseAList cs
end

/-- A concrete two-child addressed tree for the sharing counterexamples:
root (address 0) with children of ids a (address 1) and b (address 2). -/
def sampleATree : ANode :=
  .mk 0 "root" "Start".toList
    [.mk 1 "a" "A".toList [] false true, .mk 2 "b" "B".toList [] false true]
    false true

example : idsOf (addChildRecursive "root" "x" initialFlowchart) = ["root", "x"] := by
  simp [idsOf, idsOfList, addChildRecursive, addChildList, initialFlowchart]

/- ----------------------------------------------------------------- -/
/- Infrastructure lemmas.                                             -/
/- ----------------------------------------------------------------- -/

theorem updateChildren_eq_map (nodeId : String) (updates : Patch) (cs : List FlowchartNode) :
    updateChildren nodeId updates cs = cs.map (fun c => updateNodeRecursive nodeId updates c) := by
  induction cs with
  | nil => simp [updateChildren]
  | cons c cs ih => simp [updateChildren, ih]

theorem addChildList_eq_map (parentId childId : String) (cs : List FlowchartNode) :
    addChildList parentId childId cs
      = cs.map (fun c => addChildRecursive parentId childId c) := by
  induction cs with
  | nil => simp [addChildList]
  | cons c cs ih => simp [addChildList, ih]

theorem idsOfList_eq_flatMap (cs : List FlowchartNode) :
    idsOfList cs = cs.flatMap idsOf := by
  induction cs with
  | nil => simp [idsOfList]
  | cons c cs ih => simp [idsOfList, ih]

theorem flowchartNodeInduction {P : FlowchartNode → Prop}
    (ind : ∀ i nm cs e v, (∀ c ∈ cs, P c) → P (FlowchartNode.mk i nm cs e v)) :
    ∀ t, P t := by
  have H : ∀ k t, sizeOf t ≤ k → P t := by
    intro k
    induction k with
    | zero =>
      intro t h
      cases t with
      | mk i nm cs e v => simp [FlowchartNode.mk.sizeOf_spec] at h
    | succ k ih =>
      intro t h
      cases t with
      | mk i nm cs e v =>
        apply ind
        intro c hc
        apply ih
        have h1 := List.sizeOf_lt_of_mem hc
        simp only [FlowchartNode.mk.sizeOf_spec] at h
        omega
  exact fun t => H (sizeOf t) t le_rfl

theorem mem_idsOfList {c : FlowchartNode} {cs : List FlowchartNode} {x : String}
    (hc : c ∈ cs) (hx : x ∈ idsOf c) : x ∈ idsOfList cs := by
  induction cs with
  | nil => cases hc
  | cons d ds ih =>
    rcases List.mem_cons.1 hc with h | h
    · subst h; simp [idsOfList, hx]
    · simp [idsOfList, ih h]

theorem id_mem_idsOf (t : FlowchartNode) : t.id ∈ idsOf t := by
  cases t with
  | mk i nm cs e v => simp [idsOf, FlowchartNode.id]

theorem update_not_found {nodeId : String} {updates : Patch} :
    ∀ t, nodeId ∉ idsOf t → updateNodeRecursive nodeId updates t = t := by
  apply flowchartNodeInduction
  intro i nm cs e v ih h
  simp only [idsOf, List.mem_cons, not_or] at h
  obtain ⟨hne, hcs⟩ := h
  have hgen : ∀ ds, (∀ c ∈ ds, nodeId ∉ idsOf c → updateNodeRecursive nodeId updates c = c) →
      nodeId ∉ idsOfList ds → updateChildren nodeId updates ds = ds := by
    intro ds
    induction ds with
    | nil => intro _ _; simp [updateChildren]
    | cons c cs ihl =>
      intro hmem hni
      simp only [idsOfList, List.mem_append, not_or] at hni
      rw [updateChildren, hmem c (List.mem_cons_self c cs) hni.1,
        ihl (fun d hd => hmem d (List.mem_cons_of_mem _ hd)) hni.2]
  rw [updateNodeRecursive]
  simp [Ne.symm hne, hgen cs ih hcs]

theorem addChild_not_found {parentId childId : String} :
    ∀ t, parentId ∉ idsOf t → addChildRecursive parentId childId t = t := by
  apply flowchartNodeInduction
  intro i nm cs e v ih h
  simp only [idsOf, List.mem_cons, not_or] at h
  obtain ⟨hne, hcs⟩ := h
  have hgen : ∀ ds, (∀ c ∈ ds, parentId ∉ idsOf c → addChildRecursive parentId childId c = c) →
      parentId ∉ idsOfList ds → addChildList parentId childId ds = ds := by
    intro ds
    induction ds with
    | nil => intro _ _; simp [addChildList]
    | cons c cs ihl =>
      intro hmem hni
      simp only [idsOfList, List.mem_append, not_or] at hni
      rw [addChildList, hmem c (List.mem_cons_self c cs) hni.1,
        ihl (fun d hd => hmem d (List.mem_cons_of_mem _ hd)) hni.2]
  rw [addChildRecursive]
  simp [Ne.symm hne, hgen cs ih hcs]

/- ----------------------------------------------------------------- -/
/- C5: operations on an absent id are the identity.                   -/
/- ----------------------------------------------------------------- -/

/-- C5: for every tree and every id not present in it, update and
insertChild with that id return the tree unchanged: a silent identity no-op
that never corrupts the tree. -/
theorem claim_C5_missing_id_noop (t : FlowchartNode) (nodeId childId : String)
    (updates : Patch) (h : nodeId ∉ idsOf t) :
    updateNodeRecursive nodeId updates t = t ∧ addChildRecursive nodeId childId t = t :=
  ⟨update_not_found t h, addChild_not_found t h⟩

/-- C5 witness: a concrete absent id on a concrete two-node tree. -/
theorem claim_C5_missing_id_noop_witness :
    updateNodeRecursive "ghost" { name := some "X".toList }
        (addChildRecursive "root" "x" initialFlowchart)
      = addChildRecursive "root" "x" initialFlowchart ∧
    addChildRecursive "ghost" "y" (addChildRecursive "root" "x" initialFlowchart)
      = addChildRecursive "root" "x" initialFlowchart :=
  claim_C5_missing_id_noop _ "ghost" "y" _ (by
    simp [idsOf, idsOfList, addChildRecursive, addChildList, initialFlowchart])

/- ----------------------------------------------------------------- -/
/- C7: display-text truncation.                                       -/
/- ----------------------------------------------------------------- -/

/-- C7: the display text is the label verbatim when the truncate flag is off
or the label has at most 20 characters; otherwise it is the first 20
characters followed by the ellipsis; an exactly-20-character label is never
truncated and a 21-character label with truncation on is. -/
theorem claim_C7_display_text (truncateText : Bool) (s : List Char) :
    ((truncateText = false ∨ s.length ≤ 20) → getDisplayText truncateText s = s)
    ∧ (truncateText = true → 20 < s.length →
        getDisplayText truncateText s = s.take 20 ++ "...".toList)
    ∧ (s.length = 20 → getDisplayText truncateText s = s)
    ∧ (truncateText = true → s.length = 21 →
        getDisplayText truncateText s = s.take 20 ++ "...".toList) := by
  refine ⟨fun h => by simp [getDisplayText, h], fun ht hl => ?_, fun h20 => ?_, fun ht h21 => ?_⟩
  · rw [getDisplayText, if_neg (by simp [ht]; omega)]
  · simp [getDisplayText, h20]
  · rw [getDisplayText, if_neg (by simp [ht]; omega)]

/-- C7 witness: a 20-character label survives truncation mode verbatim, a
21-character label is cut to 20 characters plus the ellipsis. -/
theorem claim_C7_display_text_witness :
    getDisplayText true "abcdefghijklmnopqrst".toList = "abcdefghijklmnopqrst".toList
    ∧ getDisplayText true "abcdefghijklmnopqrstu".toList
        = "abcdefghijklmnopqrstu".toList.take 20 ++ "...".toList :=
  ⟨(claim_C7_display_text true _).2.2.1 (by decide),
   (claim_C7_display_text true _).2.2.2 rfl (by decide)⟩

/- ----------------------------------------------------------------- -/
/- C8: box width formula.                                             -/
/- ----------------------------------------------------------------- -/

/-- C8: the computed box width is max(8, len * 0.7 + 4) where len is the
length of the live edit buffer while the node is editing and of the node's
display text (truncated label when truncation applies, else the label
verbatim) otherwise. -/
theorem claim_C8_button_width (truncateText : Bool) (editValue : List Char)
    (node : FlowchartNode) :
    buttonWidth truncateText editValue node
      = max 8
          (((if node.isEditing then editValue else displayText truncateText node).length : ℚ)
            * 0.7 + 4) := by
  cases node with
  | mk i nm cs e v =>
    cases e with
    | true => simp [buttonWidth, getButtonWidth, displayText, FlowchartNode.isEditing]
    | false =>
      cases truncateText with
      | true => simp [buttonWidth, getButtonWidth, displayText, FlowchartNode.isEditing]
      | false =>
        simp [buttonWidth, getButtonWidth, displayText, FlowchartNode.isEditing,
          getDisplayText, FlowchartNode.name]

/- ----------------------------------------------------------------- -/
/- C10: width bound under truncation.                                 -/
/- ----------------------------------------------------------------- -/

/-- C10: with truncation on and the node not editing, the display text has
at most 23 characters and the box width is at most max(8, 23*0.7+4) = 20.1
rem; with truncation off, or while editing, width 25 is reachable, so no
such bound holds there. -/
theorem claim_C10_truncated_width_bound :
    (∀ (node : FlowchartNode) (editValue : List Char), node.isEditing = false →
      (displayText true node).length ≤ 23
      ∧ buttonWidth true editValue node ≤ max 8 (23 * (0.7 : ℚ) + 4))
    ∧ max 8 (23 * (0.7 : ℚ) + 4) = 201 / 10
    ∧ buttonWidth false []
        (.mk "n1" "abcdefghijklmnopqrstuvwxyz0123".toList [] false true) = 25
    ∧ buttonWidth true "abcdefghijklmnopqrstuvwxyz0123".toList
        (.mk "n2" "x".toList [] true true) = 25
    ∧ (201 : ℚ) / 10 < 25 := by
  have hlen : ∀ node : FlowchartNode, (displayText true node).length ≤ 23 := by
    intro node
    by_cases h : node.name.length ≤ 20
    · simp [displayText, getDisplayText, h]
      omega
    · rw [displayText, getDisplayText, if_neg (by simp; omega)]
      simp [List.length_take]
  have hbound : ∀ (node : FlowchartNode) (editValue : List Char), node.isEditing = false →
      buttonWidth true editValue node ≤ max 8 (23 * (0.7 : ℚ) + 4) := by
    intro node editValue hEd
    have hw : buttonWidth true editValue node = getButtonWidth (displayText true node) := by
      simp [buttonWidth, hEd, displayText]
    rw [hw, getButtonWidth]
    have h23 : ((displayText true node).length : ℚ) ≤ 23 := by
      exact_mod_cast hlen node
    refine max_le_max le_rfl ?_
    nlinarith [h23]
  have hthirty : ("abcdefghijklmnopqrstuvwxyz0123".toList).length = 30 := by decide
  have hc3 : buttonWidth false []
      (.mk "n1" "abcdefghijklmnopqrstuvwxyz0123".toList [] false true) = 25 := by
    rw [buttonWidth, getButtonWidth]
    simp only [FlowchartNode.isEditing, FlowchartNode.name, Bool.false_eq_true, if_false,
      hthirty]
    rw [max_eq_right (by norm_num)]
    norm_num
  have hc4 : buttonWidth true "abcdefghijklmnopqrstuvwxyz0123".toList
      (.mk "n2" "x".toList [] true true) = 25 := by
    rw [buttonWidth, getButtonWidth]
    simp only [FlowchartNode.isEditing, if_true, hthirty]
    rw [max_eq_right (by norm_num)]
    norm_num
  refine ⟨fun node editValue hEd => ⟨hlen node, hbound node editValue hEd⟩,
    by rw [max_eq_right (by norm_num)]; norm_num, hc3, hc4, by norm_num⟩

/-- C10 witness: the bound instantiated at a concrete non-editing node. -/
theorem claim_C10_truncated_width_bound_witness :
    (displayText true (.mk "w" "abc".toList [] false true)).length ≤ 23
    ∧ buttonWidth true [] (.mk "w" "abc".toList [] false true) ≤ max 8 (23 * (0.7 : ℚ) + 4) :=
  claim_C10_truncated_width_bound.1 (.mk "w" "abc".toList [] false true) [] rfl

/- ----------------------------------------------------------------- -/
/- C9: child-row geometry.                                            -/
/- ----------------------------------------------------------------- -/

/-- C9: child-row geometry exists exactly when the node has at least one
child and childrenVisible is true; one child yields no horizontal spine;
n ≥ 2 visible children yield a spine of length (n-1)*14+6 and n ticks at
offsets i*14 in child order. -/
theorem claim_C9_child_row_geometry (node : FlowchartNode) :
    (childRowRendered node = true ↔ 1 ≤ node.children.length ∧ node.childrenVisible = true)
    ∧ (childRowRendered node = false → spineWidth node = none ∧ tickOffsets node = [])
    ∧ (node.children.length = 1 → spineWidth node = none)
    ∧ (2 ≤ node.children.length → node.childrenVisible = true →
        spineWidth node = some (((node.children.length : ℚ) - 1) * 14 + 6)
        ∧ (tickOffsets node).length = node.children.length
        ∧ ∀ i, i < node.children.length → (tickOffsets node)[i]? = some ((i : ℚ) * 14)) := by
  refine ⟨?_, fun h => ?_, fun h1 => ?_, fun h2 hv => ?_⟩
  · simp [childRowRendered, hasChildren]
    omega
  · simp [spineWidth, tickOffsets, h]
  · simp [spineWidth, h1]
  · have hg : (childRowRendered node && decide (node.children.length > 1)) = true := by
      simp [childRowRendered, hasChildren, hv]
      omega
    refine ⟨by rw [spineWidth, if_pos hg],
      by rw [tickOffsets, if_pos hg, List.length_map, List.length_range], fun i hi => ?_⟩
    rw [tickOffsets, if_pos hg, List.getElem?_map, List.getElem?_range hi, Option.map_some']

/-- C9 witness: a node with two visible children gets a spine of length 20
and ticks at offsets 0 and 14. -/
theorem claim_C9_child_row_geometry_witness :
    spineWidth
        (.mk "p" "P".toList
          [.mk "c1" "x".toList [] false true, .mk "c2" "y".toList [] false true] false true)
      = some 20
    ∧ (tickOffsets
        (.mk "p" "P".toList
          [.mk "c1" "x".toList [] false true, .mk "c2" "y".toList [] false true] false true))[0]?
      = some 0
    ∧ (tickOffsets
        (.mk "p" "P".toList
          [.mk "c1" "x".toList [] false true, .mk "c2" "y".toList [] false true] false true))[1]?
      = some 14 := by
  obtain ⟨hs, hlen, hticks⟩ :=
    (claim_C9_child_row_geometry
      (.mk "p" "P".toList
        [.mk "c1" "x".toList [] false true, .mk "c2" "y".toList [] false true] false true)).2.2.2
      (by decide) rfl
  refine ⟨?_, ?_, ?_⟩
  · rw [hs]; norm_num [FlowchartNode.children]
  · rw [hticks 0 (by decide)]; norm_num
  · rw [hticks 1 (by decide)]; norm_num

/- ----------------------------------------------------------------- -/
/- C4: commit / cancel edit semantics.                                -/
/- ----------------------------------------------------------------- -/

theorem findNode_update (nodeId : String) (updates : Patch) (hid : updates.id = none) :
    ∀ t, findNode nodeId (updateNodeRecursive nodeId updates t)
      = (findNode nodeId t).map (applyPatch updates) := by
  apply flowchartNodeInduction
  intro i nm cs e v ih
  by_cases hmatch : i = nodeId
  · rw [updateNodeRecursive, if_pos hmatch]
    simp [applyPatch, hid, findNode, hmatch, FlowchartNode.id]
  · rw [updateNodeRecursive, if_neg hmatch]
    rw [findNode, if_neg hmatch, findNode, if_neg hmatch]
    have hgen : ∀ ds, (∀ c ∈ ds, findNode nodeId (updateNodeRecursive nodeId updates c)
        = (findNode nodeId c).map (applyPatch updates)) →
        findNodeList nodeId (updateChildren nodeId updates ds)
          = (findNodeList nodeId ds).map (applyPatch updates) := by
      intro ds
      induction ds with
      | nil => intro _; simp [updateChildren, findNodeList]
      | cons c cs ihl =>
        intro hmem
        rw [updateChildren, findNodeList, findNodeList,
          hmem c (List.mem_cons_self c cs)]
        cases hc : findNode nodeId c with
        | some r => simp
        | none => simp [ihl (fun d hd => hmem d (List.mem_cons_of_mem _ hd))]
    exact hgen cs ih

/-- C4: finalizing an edit whose trimmed buffer is nonempty stores the
trimmed text as the label and clears the editing flag; finalizing with a
whitespace-only buffer keeps the previous label and clears the flag;
canceling always keeps the previous label and clears the flag. -/
theorem claim_C4_commit_cancel_edit (t : FlowchartNode) (nodeId : String)
    (editValue : List Char) (n : FlowchartNode)
    (hfind : findNode nodeId t = some n) (hEd : n.isEditing = true) :
    (findNode nodeId (handleSaveEdit nodeId editValue t)).map FlowchartNode.name
        = some (if jsTrim editValue = [] then n.name else jsTrim editValue)
    ∧ (findNode nodeId (handleSaveEdit nodeId editValue t)).map FlowchartNode.isEditing
        = some false
    ∧ (findNode nodeId (handleCancelEdit nodeId t)).map FlowchartNode.name = some n.name
    ∧ (findNode nodeId (handleCancelEdit nodeId t)).map FlowchartNode.isEditing
        = some false := by
  by_cases hb : jsTrim editValue = []
  · rw [handleSaveEdit, if_neg (by simp [hb])]
    rw [handleCancelEdit, findNode_update nodeId _ rfl t, hfind]
    simp [applyPatch, FlowchartNode.name, FlowchartNode.isEditing, hb]
  · rw [handleSaveEdit, if_pos (by simp [hb])]
    rw [handleCancelEdit, findNode_update nodeId _ rfl t, findNode_update nodeId _ rfl t, hfind]
    simp [applyPatch, FlowchartNode.name, FlowchartNode.isEditing, hb]

/-- C4 witness: put a concrete child into editing state, then commit a
whitespace-only buffer: the label stays, editing ends; cancel behaves the
same. -/
theorem claim_C4_commit_cancel_edit_witness :
    (findNode "c"
        (handleSaveEdit "c" "  ".toList
          (updateNodeRecursive "c" { isEditing := some true }
            (.mk "root" "Start".toList [.mk "c" "Kid".toList [] false true] false true)))).map
        FlowchartNode.name
      = some "Kid".toList
    ∧ (findNode "c"
        (handleSaveEdit "c" "  ".toList
          (updateNodeRecursive "c" { isEditing := some true }
            (.mk "root" "Start".toList [.mk "c" "Kid".toList [] false true] false true)))).map
        FlowchartNode.isEditing
      = some false := by
  obtain ⟨h1, h2, h3, h4⟩ :=
    claim_C4_commit_cancel_edit
      (updateNodeRecursive "c" { isEditing := some true }
        (.mk "root" "Start".toList [.mk "c" "Kid".toList [] false true] false true))
      "c" "  ".toList (.mk "c" "Kid".toList [] true true)
      (by simp [updateNodeRecursive, updateChildren, applyPatch, findNode,
        findNodeList, FlowchartNode.id, FlowchartNode.name, FlowchartNode.children,
        FlowchartNode.isEditing, FlowchartNode.childrenVisible])
      rfl
  rw [if_pos (by decide)] at h1
  exact ⟨h1, h2⟩

/- ----------------------------------------------------------------- -/
/- C6: shape preservation under update.                               -/
/- ----------------------------------------------------------------- -/

/-- C6 counterexample: as stated over the full `Partial<FlowchartNode>`
patch surface the claim fails twice over.  A patch carrying a `children`
field changes the tree shape: patching the root of a one-child tree with
`children: []` drops its child.  And with an absent nodeId not one but zero
nodes change: the tree comes back identical. -/
theorem claim_C6_counterexample :
    (updateNodeRecursive "root" { children := some [] }
        (.mk "root" "Start".toList [.mk "c" "Kid".toList [] false true] false true)).children.length
      = 0
    ∧ (FlowchartNode.mk "root" "Start".toList [.mk "c" "Kid".toList [] false true]
        false true).children.length = 1
    ∧ updateNodeRecursive "ghost" { name := some "X".toList } initialFlowchart
        = initialFlowchart := by
  refine ⟨?_, by decide, ?_⟩
  · simp [updateNodeRecursive, applyPatch, FlowchartNode.children, FlowchartNode.id]
  · simp [updateNodeRecursive, updateChildren, applyPatch, initialFlowchart]

theorem update_shape (nodeId : String) (updates : Patch) (hch : updates.children = none) :
    ∀ (p : List Nat) (t : FlowchartNode),
      (nodeAt (updateNodeRecursive nodeId updates t) p).map childCount
        = (nodeAt t p).map childCount := by
  intro p
  induction p with
  | nil =>
    intro t
    cases t with
    | mk i nm cs e v =>
      by_cases h : i = nodeId
      · rw [updateNodeRecursive, if_pos h]
        simp [nodeAt, applyPatch, hch, childCount, FlowchartNode.children]
      · rw [updateNodeRecursive, if_neg h]
        simp [nodeAt, childCount, FlowchartNode.children, updateChildren_eq_map]
  | cons j p ih =>
    intro t
    cases t with
    | mk i nm cs e v =>
      by_cases h : i = nodeId
      · rw [updateNodeRecursive, if_pos h]
        have hc : (applyPatch updates (.mk i nm cs e v)).children = cs := by
          simp [applyPatch, hch, FlowchartNode.children]
        rw [nodeAt, hc, nodeAt, FlowchartNode.children]
      · rw [updateNodeRecursive, if_neg h]
        rw [nodeAt, nodeAt]
        simp only [FlowchartNode.children, updateChildren_eq_map, List.getElem?_map]
        cases hj : cs[j]? with
        | some c => simpa using ih c
        | none => simp

theorem update_content_off_target (nodeId : String) (updates : Patch)
    (hch : updates.children = none) :
    ∀ (p : List Nat) (t n : FlowchartNode), nodeAt t p = some n → n.id ≠ nodeId →
      (nodeAt (updateNodeRecursive nodeId updates t) p).map contentOf
        = some (contentOf n) := by
  intro p
  induction p with
  | nil =>
    intro t n hfind hne
    rw [nodeAt, Option.some_inj] at hfind
    subst hfind
    cases t with
    | mk i nm cs e v =>
      have h : ¬ i = nodeId := by simpa [FlowchartNode.id] using hne
      rw [updateNodeRecursive, if_neg h]
      simp [nodeAt, contentOf, FlowchartNode.id, FlowchartNode.name,
        FlowchartNode.isEditing, FlowchartNode.childrenVisible]
  | cons j p ih =>
    intro t n hfind hne
    cases t with
    | mk i nm cs e v =>
      rw [nodeAt] at hfind
      simp only [FlowchartNode.children] at hfind
      cases hj : cs[j]? with
      | none => rw [hj] at hfind; cases hfind
      | some c =>
        rw [hj] at hfind
        by_cases h : i = nodeId
        · rw [updateNodeRecursive, if_pos h]
          have hc : (applyPatch updates (.mk i nm cs e v)).children = cs := by
            simp [applyPatch, hch, FlowchartNode.children]
          rw [nodeAt, hc, hj, hfind, Option.map_some']
        · rw [updateNodeRecursive, if_neg h]
          rw [nodeAt]
          simp only [FlowchartNode.children, updateChildren_eq_map, List.getElem?_map, hj,
            Option.map_some']
          exact ih c n hfind hne

/-- C6 amended: for every patch whose `children` field is unset, update
preserves every node's child count and child ordering (the skeleton at every
child-index path), and every node whose id differs from the target id keeps
its content (id, label, editing flag, visibility) unchanged — so only nodes
carrying the target id can change. -/
theorem claim_C6_amended_shape_preservation (t : FlowchartNode) (nodeId : String)
    (updates : Patch) (hch : updates.children = none) :
    (∀ p : List Nat,
      (nodeAt (updateNodeRecursive nodeId updates t) p).map childCount
        = (nodeAt t p).map childCount)
    ∧ (∀ (p : List Nat) (n : FlowchartNode), nodeAt t p = some n → n.id ≠ nodeId →
        (nodeAt (updateNodeRecursive nodeId updates t) p).map contentOf
          = some (contentOf n)) :=
  ⟨fun p => update_shape nodeId updates hch p t,
   fun p n hf hne => update_content_off_target nodeId updates hch p t n hf hne⟩

/-- C6 witness: the amended claim at a concrete one-child tree, a concrete
rename patch, the child path and the untouched root. -/
theorem claim_C6_amended_shape_preservation_witness :
    (nodeAt (updateNodeRecursive "c" { name := some "X".toList }
        (.mk "root" "Start".toList [.mk "c" "Kid".toList [] false true] false true)) [0]).map
        childCount
      = (nodeAt (.mk "root" "Start".toList [.mk "c" "Kid".toList [] false true] false true)
          [0]).map childCount
    ∧ (nodeAt (updateNodeRecursive "c" { name := some "X".toList }
        (.mk "root" "Start".toList [.mk "c" "Kid".toList [] false true] false true)) []).map
        contentOf
      = some (contentOf
          (.mk "root" "Start".toList [.mk "c" "Kid".toList [] false true] false true)) :=
  ⟨(claim_C6_amended_shape_preservation
      (.mk "root" "Start".toList [.mk "c" "Kid".toList [] false true] false true)
      "c" { name := some "X".toList } rfl).1 [0],
   (claim_C6_amended_shape_preservation
      (.mk "root" "Start".toList [.mk "c" "Kid".toList [] false true] false true)
      "c" { name := some "X".toList } rfl).2 [] _ rfl (by decide)⟩

/- ----------------------------------------------------------------- -/
/- C3: insertChild appends exactly one fresh leaf at the parent.      -/
/- ----------------------------------------------------------------- -/

theorem addChildList_not_found {parentId childId : String} {cs : List FlowchartNode}
    (h : parentId ∉ idsOfList cs) : addChildList parentId childId cs = cs := by
  induction cs with
  | nil => simp [addChildList]
  | cons c cs ih =>
    simp only [idsOfList, List.mem_append, not_or] at h
    rw [addChildList, addChild_not_found c h.1, ih h.2]

theorem nodeAt_id_mem : ∀ (p : List Nat) (t n : FlowchartNode),
    nodeAt t p = some n → n.id ∈ idsOf t := by
  intro p
  induction p with
  | nil =>
    intro t n h
    rw [nodeAt, Option.some_inj] at h
    subst h
    exact id_mem_idsOf t
  | cons j q ih =>
    intro t n h
    cases t with
    | mk i nm cs e v =>
      rw [nodeAt] at h
      simp only [FlowchartNode.children] at h
      cases hj : cs[j]? with
      | none => rw [hj] at h; cases h
      | some c =>
        rw [hj] at h
        have hc : c ∈ cs := List.getElem?_mem hj
        exact List.mem_cons_of_mem _ (mem_idsOfList hc (ih c n h))

theorem nodup_child {cs : List FlowchartNode} {j : Nat} {c : FlowchartNode}
    (hnd : (idsOfList cs).Nodup) (hj : cs[j]? = some c) : (idsOf c).Nodup := by
  induction cs generalizing j with
  | nil => simp at hj
  | cons d ds ih =>
    rw [idsOfList] at hnd
    cases j with
    | zero =>
      simp only [List.getElem?_cons_zero, Option.some_inj] at hj
      subst hj
      exact hnd.of_append_left
    | succ k =>
      simp only [List.getElem?_cons_succ] at hj
      exact ih hnd.of_append_right hj

theorem addChildList_eq_set (parentId childId : String) :
    ∀ (cs : List FlowchartNode) (j : Nat) (c : FlowchartNode),
      cs[j]? = some c → (idsOfList cs).Nodup → parentId ∈ idsOf c →
      addChildList parentId childId cs = cs.set j (addChildRecursive parentId childId c) := by
  intro cs
  induction cs with
  | nil => intro j c hj; simp at hj
  | cons d ds ih =>
    intro j c hj hnd hpid
    rw [idsOfList] at hnd
    have hdisj := List.disjoint_of_nodup_append hnd
    cases j with
    | zero =>
      simp only [List.getElem?_cons_zero, Option.some_inj] at hj
      subst hj
      rw [addChildList, List.set_cons_zero]
      congr 1
      exact addChildList_not_found (fun hmem => hdisj hpid hmem)
    | succ k =>
      simp only [List.getElem?_cons_succ] at hj
      have hds : parentId ∈ idsOfList ds :=
        mem_idsOfList (List.getElem?_mem hj) hpid
      rw [addChildList, List.set_cons_succ]
      congr 1
      · exact addChild_not_found d (fun hd => hdisj hd hds)
      · exact ih k c hj hnd.of_append_right hpid

/-- C3: on a tree with pairwise-distinct ids (the documented model
invariant), insertChild at the node sitting at path p with id parentId
returns the very same tree except that exactly one new node — a leaf with
the generated id, label "Button " followed by the parent's former child
count plus one, editing off and children visible — is appended at the end of
that parent's child sequence. -/
theorem claim_C3_insert_child (t : FlowchartNode) (parentId childId : String)
    (p : List Nat) (n : FlowchartNode) (hnd : (idsOf t).Nodup)
    (hp : nodeAt t p = some n) (hid : n.id = parentId) :
    addChildRecursive parentId childId t = modifyAt (appendNewChild childId) t p := by
  induction p generalizing t n with
  | nil =>
    rw [nodeAt, Option.some_inj] at hp
    subst hp
    cases t with
    | mk i nm cs e v =>
      rw [FlowchartNode.id] at hid
      rw [addChildRecursive, if_pos hid, modifyAt]
      simp [appendNewChild, newChildNode, hid, FlowchartNode.id, FlowchartNode.name,
        FlowchartNode.children, FlowchartNode.isEditing, FlowchartNode.childrenVisible]
  | cons j q ih =>
    cases t with
    | mk i nm cs e v =>
      rw [nodeAt] at hp
      simp only [FlowchartNode.children] at hp
      cases hj : cs[j]? with
      | none => rw [hj] at hp; cases hp
      | some c =>
        rw [hj] at hp
        rw [idsOf] at hnd
        have hmemc : parentId ∈ idsOf c := hid ▸ nodeAt_id_mem q c n hp
        have hne : ¬ i = parentId := by
          intro hip
          exact (List.nodup_cons.1 hnd).1
            (hip ▸ mem_idsOfList (List.getElem?_mem hj) hmemc)
        rw [addChildRecursive, if_neg hne, modifyAt, hj,
          addChildList_eq_set parentId childId cs j c hj (List.nodup_cons.1 hnd).2 hmemc,
          ih c n (nodup_child (List.nodup_cons.1 hnd).2 hj) hp hid]

/-- C3 witness: appending under the root of a concrete one-child tree, and
the spec scenario — two insertChild calls at the root of the initial tree
leave children labeled Button 1 and Button 2. -/
theorem claim_C3_insert_child_witness :
    addChildRecursive "root" "b2"
        (.mk "root" "Start".toList [.mk "b1" "Button 1".toList [] false true] false true)
      = modifyAt (appendNewChild "b2")
          (.mk "root" "Start".toList [.mk "b1" "Button 1".toList [] false true] false true) []
    ∧ (applyAddSeq [("root", "b1"), ("root", "b2")] initialFlowchart).children.map
        FlowchartNode.name = ["Button 1".toList, "Button 2".toList] := by
  refine ⟨claim_C3_insert_child _ "root" "b2" [] _ (by simp [idsOf, idsOfList]) rfl rfl, ?_⟩
  simp [applyAddSeq, addChildRecursive, addChildList, initialFlowchart,
    FlowchartNode.children, FlowchartNode.name]
  decide

/- ----------------------------------------------------------------- -/
/- C2: id uniqueness across insertChild sequences.                    -/
/- ----------------------------------------------------------------- -/

/-- C2 counterexample: the generated id is an environment value
(Date.now/Math.random) with no uniqueness check against the tree, so a
sequence whose second call draws an id already present — possible since two
calls in the same millisecond may draw the same random suffix — yields a
duplicated id. -/
theorem claim_C2_counterexample :
    ¬ (idsOf (applyAddSeq [("root", "x"), ("root", "x")] initialFlowchart)).Nodup := by
  simp [applyAddSeq, addChildRecursive, addChildList, initialFlowchart, idsOf, idsOfList]

theorem idsOfList_append (cs ds : List FlowchartNode) :
    idsOfList (cs ++ ds) = idsOfList cs ++ idsOfList ds := by
  induction cs with
  | nil => simp [idsOfList]
  | cons c cs ih => simp [idsOfList, ih]

theorem ids_addChild_perm (parentId childId : String) :
    ∀ t, (idsOf t).Nodup → parentId ∈ idsOf t →
      (idsOf (addChildRecursive parentId childId t)).Perm (childId :: idsOf t) := by
  apply flowchartNodeInduction
  intro i nm cs e v ih hnd hmem
  by_cases h : i = parentId
  · rw [addChildRecursive, if_pos h, idsOf, idsOfList_append, idsOf]
    have h1 : ((idsOfList cs) ++ idsOfList [.mk childId
        ("Button ".toList ++ (toString (cs.length + 1)).toList) [] false true]).Perm
        (childId :: idsOfList cs) := by
      simp only [idsOfList, idsOf, List.append_nil]
      exact List.perm_append_singleton childId (idsOfList cs)
    exact (h1.cons i).trans (List.Perm.swap childId i (idsOfList cs))
  · rw [idsOf] at hnd hmem
    have hcs : parentId ∈ idsOfList cs := by
      rcases List.mem_cons.1 hmem with h1 | h1
      · exact absurd h1.symm h
      · exact h1
    have hndcs := (List.nodup_cons.1 hnd).2
    have hlist : ∀ ds, (∀ c ∈ ds, (idsOf c).Nodup → parentId ∈ idsOf c →
        (idsOf (addChildRecursive parentId childId c)).Perm (childId :: idsOf c)) →
        (idsOfList ds).Nodup → parentId ∈ idsOfList ds →
        (idsOfList (addChildList parentId childId ds)).Perm (childId :: idsOfList ds) := by
      intro ds
      induction ds with
      | nil => intro _ _ hm; simp [idsOfList] at hm
      | cons d rest ihl =>
        intro hmemIH hndl hml
        rw [idsOfList] at hndl hml
        have hdisj := List.disjoint_of_nodup_append hndl
        by_cases hd : parentId ∈ idsOf d
        · have hnr : parentId ∉ idsOfList rest := fun hr => hdisj hd hr
          rw [addChildList, idsOfList, addChildList_not_found hnr]
          have h1 := hmemIH d (List.mem_cons_self d rest) hndl.of_append_left hd
          exact (h1.append_right (idsOfList rest)).trans
            (by rw [List.cons_append, idsOfList])
        · have hr : parentId ∈ idsOfList rest := by
            rcases List.mem_append.1 hml with h1 | h1
            · exact absurd h1 hd
            · exact h1
          rw [addChildList, idsOfList, addChild_not_found d hd]
          have h2 := ihl (fun c hc => hmemIH c (List.mem_cons_of_mem _ hc))
            hndl.of_append_right hr
          exact ((h2.append_left (idsOf d))).trans (by rw [idsOfList]; exact List.perm_middle)
    have h2 := hlist cs (fun c hc h1 h2 => ih c hc h1 h2) hndcs hcs
    rw [addChildRecursive, if_neg h, idsOf]
    exact (h2.cons i).trans (List.Perm.swap childId i (idsOfList cs))

theorem addChild_step_nodup {parentId childId : String} {t : FlowchartNode}
    (hnd : (idsOf t).Nodup) (hc : childId ∉ idsOf t) :
    (idsOf (addChildRecursive parentId childId t)).Nodup := by
  by_cases hp : parentId ∈ idsOf t
  · exact ((ids_addChild_perm parentId childId t hnd hp).nodup_iff).2
      (List.nodup_cons.2 ⟨hc, hnd⟩)
  · rw [addChild_not_found t hp]; exact hnd

theorem applyAddSeq_nodup : ∀ (seq : List (String × String)) (t : FlowchartNode),
    (idsOf t).Nodup → freshSeq seq t = true → (idsOf (applyAddSeq seq t)).Nodup := by
  intro seq
  induction seq with
  | nil => intro t hnd _; simpa [applyAddSeq] using hnd
  | cons sc rest ih =>
    intro t hnd hf
    rw [freshSeq, Bool.and_eq_true] at hf
    have hc : sc.2 ∉ idsOf t := by simpa using hf.1
    have : applyAddSeq (sc :: rest) t = applyAddSeq rest (addChildRecursive sc.1 sc.2 t) := by
      rw [applyAddSeq, applyAddSeq, List.foldl_cons]
    rw [this]
    exact ih _ (addChild_step_nodup hnd hc) hf.2

/-- C2 amended: for every sequence of insertChild calls starting from the
initial root-only tree in which each generated id differs from every id
already in the tree at its step (collision-freedom, which the
timestamp-plus-random generator makes likely but does not check or
guarantee), all node ids in the resulting tree are pairwise distinct. -/
theorem claim_C2_amended_unique_ids (seq : List (String × String))
    (hf : freshSeq seq initialFlowchart = true) :
    (idsOf (applyAddSeq seq initialFlowchart)).Nodup :=
  applyAddSeq_nodup seq initialFlowchart
    (by simp [idsOf, idsOfList, initialFlowchart]) hf

/-- C2 witness: a concrete collision-free two-call sequence yields distinct
ids. -/
theorem claim_C2_amended_unique_ids_witness :
    freshSeq [("root", "x"), ("root", "y")] initialFlowchart = true
    ∧ (idsOf (applyAddSeq [("root", "x"), ("root", "y")] initialFlowchart)).Nodup :=
  ⟨by simp [freshSeq, idsOf, idsOfList, initialFlowchart, addChildRecursive, addChildList],
   claim_C2_amended_unique_ids _
    (by simp [freshSeq, idsOf, idsOfList, initialFlowchart, addChildRecursive, addChildList])⟩

/- ----------------------------------------------------------------- -/
/- C1: structural sharing.                                            -/
/- ----------------------------------------------------------------- -/

theorem aNodeInduction {P : ANode → Prop}
    (ind : ∀ a i nm cs e v, (∀ c ∈ cs, P c) → P (ANode.mk a i nm cs e v)) :
    ∀ t, P t := by
  have H : ∀ k t, sizeOf t ≤ k → P t := by
    intro k
    induction k with
    | zero =>
      intro t h
      cases t with
      | mk a i nm cs e v => simp [ANode.mk.sizeOf_spec] at h
    | succ k ih =>
      intro t h
      cases t with
      | mk a i nm cs e v =>
        apply ind
        intro c hc
        apply ih
        have h1 := List.sizeOf_lt_of_mem hc
        simp only [ANode.mk.sizeOf_spec] at h
        omega
  exact fun t => H (sizeOf t) t le_rfl

theorem updA_matched {nodeId : String} {updates : APatch} {n : ANode} {ctr : Nat}
    (h : n.id = nodeId) (hch : updates.children = none) :
    ((updateNodeRecursiveA nodeId updates n ctr).1).children = n.children := by
  cases n with
  | mk a i nm cs e v =>
    rw [ANode.id] at h
    rw [updateNodeRecursiveA, if_pos h]
    simp [ANode.children, hch]

theorem addA_matched {parentId childId : String} {n : ANode} {ctr : Nat}
    (h : n.id = parentId) :
    ((addChildRecursiveA parentId childId n ctr).1).children
      = n.children
        ++ [.mk ctr childId ("Button ".toList ++ (toString (n.children.length + 1)).toList)
            [] false true] := by
  cases n with
  | mk a i nm cs e v =>
    rw [ANode.id] at h
    rw [addChildRecursiveA, if_pos h]
    simp [ANode.children]

theorem updA_rebuild {nodeId : String} {updates : APatch} :
    ∀ n : ANode, nodeId ∉ idsOfA n → ∀ ctr : Nat,
      ctr ≤ (updateNodeRecursiveA nodeId updates n ctr).2
      ∧ (∀ a ∈ addrsOfA (updateNodeRecursiveA nodeId updates n ctr).1, ctr ≤ a)
      ∧ eraseA (updateNodeRecursiveA nodeId updates n ctr).1 = eraseA n := by
  apply aNodeInduction
  intro a i nm cs e v ih hni ctr
  rw [idsOfA] at hni
  simp only [List.mem_cons, not_or] at hni
  have hne : ¬ i = nodeId := fun h => hni.1 h.symm
  have hgen : ∀ ds, (∀ c ∈ ds, nodeId ∉ idsOfA c → ∀ k,
      k ≤ (updateNodeRecursiveA nodeId updates c k).2
      ∧ (∀ x ∈ addrsOfA (updateNodeRecursiveA nodeId updates c k).1, k ≤ x)
      ∧ eraseA (updateNodeRecursiveA nodeId updates c k).1 = eraseA c) →
      nodeId ∉ idsOfListA ds → ∀ k,
      k ≤ (updateChildrenA nodeId updates ds k).2
      ∧ (∀ x ∈ addrsOfListA (updateChildrenA nodeId updates ds k).1, k ≤ x)
      ∧ eraseAList (updateChildrenA nodeId updates ds k).1 = eraseAList ds := by
    intro ds
    induction ds with
    | nil => intro _ _ k; simp [updateChildrenA, addrsOfListA, eraseAList]
    | cons c rest ihl =>
      intro hmem hnl k
      simp only [idsOfListA, List.mem_append, not_or] at hnl
      obtain ⟨h1, h2, h3⟩ := hmem c (List.mem_cons_self c rest) hnl.1 k
      obtain ⟨h4, h5, h6⟩ := ihl (fun d hd => hmem d (List.mem_cons_of_mem _ hd)) hnl.2
        (updateNodeRecursiveA nodeId updates c k).2
      rw [updateChildrenA]
      refine ⟨le_trans h1 h4, ?_, ?_⟩
      · intro x hx
        rw [addrsOfListA, List.mem_append] at hx
        rcases hx with hx | hx
        · exact h2 x hx
        · exact le_trans h1 (h5 x hx)
      · rw [eraseAList, h3, h6, eraseAList]
  obtain ⟨h4, h5, h6⟩ := hgen cs ih hni.2 ctr
  rw [updateNodeRecursiveA, if_neg hne]
  refine ⟨by simpa using Nat.le_succ_of_le h4, ?_, ?_⟩
  · intro x hx
    simp only [addrsOfA, List.mem_cons] at hx
    rcases hx with hx | hx
    · omega
    · exact h5 x hx
  · rw [eraseA, h6, eraseA]

theorem addA_rebuild {parentId childId : String} :
    ∀ n : ANode, parentId ∉ idsOfA n → ∀ ctr : Nat,
      ctr ≤ (addChildRecursiveA parentId childId n ctr).2
      ∧ (∀ a ∈ addrsOfA (addChildRecursiveA parentId childId n ctr).1, ctr ≤ a)
      ∧ eraseA (addChildRecursiveA parentId childId n ctr).1 = eraseA n := by
  apply aNodeInduction
  intro a i nm cs e v ih hni ctr
  rw [idsOfA] at hni
  simp only [List.mem_cons, not_or] at hni
  have hne : ¬ i = parentId := fun h => hni.1 h.symm
  have hgen : ∀ ds, (∀ c ∈ ds, parentId ∉ idsOfA c → ∀ k,
      k ≤ (addChildRecursiveA parentId childId c k).2
      ∧ (∀ x ∈ addrsOfA (addChildRecursiveA parentId childId c k).1, k ≤ x)
      ∧ eraseA (addChildRecursiveA parentId childId c k).1 = eraseA c) →
      parentId ∉ idsOfListA ds → ∀ k,
      k ≤ (addChildListA parentId childId ds k).2
      ∧ (∀ x ∈ addrsOfListA (addChildListA parentId childId ds k).1, k ≤ x)
      ∧ eraseAList (addChildListA parentId childId ds k).1 = eraseAList ds := by
    intro ds
    induction ds with
    | nil => intro _ _ k; simp [addChildListA, addrsOfListA, eraseAList]
    | cons c rest ihl =>
      intro hmem hnl k
      simp only [idsOfListA, List.mem_append, not_or] at hnl
      obtain ⟨h1, h2, h3⟩ := hmem c (List.mem_cons_self c rest) hnl.1 k
      obtain ⟨h4, h5, h6⟩ := ihl (fun d hd => hmem d (List.mem_cons_of_mem _ hd)) hnl.2
        (addChildRecursiveA parentId childId c k).2
      rw [addChildListA]
      refine ⟨le_trans h1 h4, ?_, ?_⟩
      · intro x hx
        rw [addrsOfListA, List.mem_append] at hx
        rcases hx with hx | hx
        · exact h2 x hx
        · exact le_trans h1 (h5 x hx)
      · rw [eraseAList, h3, h6, eraseAList]
  obtain ⟨h4, h5, h6⟩ := hgen cs ih hni.2 ctr
  rw [addChildRecursiveA, if_neg hne]
  refine ⟨by simpa using Nat.le_succ_of_le h4, ?_, ?_⟩
  · intro x hx
    simp only [addrsOfA, List.mem_cons] at hx
    rcases hx with hx | hx
    · omega
    · exact h5 x hx
  · rw [eraseA, h6, eraseA]

/-- C1 counterexample: on a two-child tree (root address 0, children a at
address 1 and b at address 2, allocation counter 3), updating node a — or
inserting under a — rebuilds the sibling subtree b as a new object: its
address is no longer 2, although its erased content is unchanged.  The
sibling is therefore not reference-identical, contradicting the claim. -/
theorem claim_C1_counterexample :
    ((updateNodeRecursiveA "a" { name := some "A2".toList } sampleATree 3).1.children[1]?).map
        ANode.addr ≠ some 2
    ∧ ((addChildRecursiveA "a" "c9" sampleATree 3).1.children[1]?).map ANode.addr ≠ some 2
    ∧ (sampleATree.children[1]?).map ANode.addr = some 2
    ∧ ((updateNodeRecursiveA "a" { name := some "A2".toList } sampleATree 3).1.children[1]?).map
        eraseA = (sampleATree.children[1]?).map eraseA := by
  refine ⟨?_, ?_, ?_, ?_⟩
  · simp [updateNodeRecursiveA, updateChildrenA, sampleATree, ANode.addr, ANode.children,
      ANode.id]
  · simp [addChildRecursiveA, addChildListA, sampleATree, ANode.addr, ANode.children,
      ANode.id]
  · simp [sampleATree, ANode.addr, ANode.children]
  · simp [updateNodeRecursiveA, updateChildrenA, sampleATree, ANode.children, ANode.id,
      eraseA, eraseAList]

/-- C1 amended: the only subtrees update reuses by reference are those
strictly below the matched node — when the recursion reaches the node whose
id is the target (and the patch carries no children field) that node's child
list is passed through by reference untouched; likewise insertChild reuses
the parent's existing children by reference, appending the fresh leaf after
them.  Every node of a subtree in which the target id does not occur —
in particular every sibling subtree off the root-to-target path — is rebuilt
as a new object (all addresses fresh, at or above the allocation counter,
hence disjoint from all pre-existing addresses), with its content unchanged. -/
theorem claim_C1_amended_sharing (nodeId childId : String) (updates : APatch)
    (n : ANode) (ctr : Nat) :
    (n.id = nodeId → updates.children = none →
      ((updateNodeRecursiveA nodeId updates n ctr).1).children = n.children)
    ∧ (nodeId ∉ idsOfA n →
        (∀ a ∈ addrsOfA (updateNodeRecursiveA nodeId updates n ctr).1, ctr ≤ a)
        ∧ eraseA (updateNodeRecursiveA nodeId updates n ctr).1 = eraseA n)
    ∧ (n.id = nodeId →
        ((addChildRecursiveA nodeId childId n ctr).1).children
          = n.children
            ++ [.mk ctr childId
                ("Button ".toList ++ (toString (n.children.length + 1)).toList) [] false true])
    ∧ (nodeId ∉ idsOfA n →
        (∀ a ∈ addrsOfA (addChildRecursiveA nodeId childId n ctr).1, ctr ≤ a)
        ∧ eraseA (addChildRecursiveA nodeId childId n ctr).1 = eraseA n)
    ∧ ((∀ a ∈ addrsOfA n, a < ctr) → nodeId ∉ idsOfA n →
        ∀ a ∈ addrsOfA (updateNodeRecursiveA nodeId updates n ctr).1, a ∉ addrsOfA n)
    ∧ ((∀ a ∈ addrsOfA n, a < ctr) → nodeId ∉ idsOfA n →
        ∀ a ∈ addrsOfA (addChildRecursiveA nodeId childId n ctr).1, a ∉ addrsOfA n) := by
  refine ⟨fun h hch => updA_matched h hch,
    fun hni => ⟨((updA_rebuild n hni ctr)).2.1, ((updA_rebuild n hni ctr)).2.2⟩,
    fun h => addA_matched h,
    fun hni => ⟨((addA_rebuild n hni ctr)).2.1, ((addA_rebuild n hni ctr)).2.2⟩,
    fun hlt hni a ha hmem => ?_,
    fun hlt hni a ha hmem => ?_⟩
  · exact absurd (hlt a hmem) (by simpa using (updA_rebuild n hni ctr).2.1 a ha)
  · exact absurd (hlt a hmem) (by simpa using (addA_rebuild n hni ctr).2.1 a ha)

/-- C1 amended witness: at the concrete two-child tree, an update matching
the root reuses the whole child list by reference, and an update whose id
occurs nowhere rebuilds everything with fresh addresses while preserving
the erased content. -/
theorem claim_C1_amended_sharing_witness :
    ((updateNodeRecursiveA "root" {} sampleATree 3).1).children = sampleATree.children
    ∧ eraseA (updateNodeRecursiveA "zz" {} sampleATree 3).1 = eraseA sampleATree
    ∧ (∀ a ∈ addrsOfA (updateNodeRecursiveA "zz" {} sampleATree 3).1, 3 ≤ a) :=
  ⟨(claim_C1_amended_sharing "root" "c" {} sampleATree 3).1 rfl rfl,
   ((claim_C1_amended_sharing "zz" "c" {} sampleATree 3).2.1
      (by simp [idsOfA, idsOfListA, sampleATree, ANode.id])).2,
   ((claim_C1_amended_sharing "zz" "c" {} sampleATree 3).2.1
      (by simp [idsOfA, idsOfListA, sampleATree, ANode.id])).1⟩
